import Mathlib

/-!
Verification of the rusticle numerical library (complex numbers, angles,
complex vectors, generic matrices) against its specification.

The Rust source is shallowly embedded:
* `f64` values are idealised as exact numbers — rationals (`ℚ`) for the
  string parser, whose control flow never branches on numeric values, and
  reals (`ℝ`) for the analytic operations (`sqrt`, tolerance checks).
* Panicking operations (`assert!`, out-of-bounds `Vec` indexing) are
  embedded as `Option`/`Except`-returning functions: `none`/`.error`
  models the panic, which produces no value and no partial output.
* Rust's `FromStr for f64` is embedded on its finite-literal fragment
  (sign, decimal mantissa, optional exponent); `inf`/`NaN` spellings are
  irrelevant to every claim considered here.
-/

namespace Rusticle

/-- Complex number `a + bi`, generic in the scalar type (source `f64`):
source struct `Complex { real: f64, imag: f64 }` in src/complex/complex.rs. -/
structure Complex (α : Type) where
  real : α
  imag : α
deriving DecidableEq

instance [Zero α] : Zero (Complex α) := ⟨⟨0, 0⟩⟩

/-- Source `impl Default for Complex`: `Complex::new(0.0, 0.0)`. -/
instance [Zero α] : Inhabited (Complex α) := ⟨⟨0, 0⟩⟩

/-- Source `Complex::new(real, imag)`. -/
def Complex.new (real imag : α) : Complex α := ⟨real, imag⟩

/-- Source `Complex::conjugate`: negates the imaginary part only. -/
def Complex.conjugate [Neg α] (z : Complex α) : Complex α :=
  ⟨z.real, -z.imag⟩

/-- Source `Complex::magnitude_squared`: `real*real + imag*imag`. -/
def Complex.magnitude_squared [Mul α] [Add α] (z : Complex α) : α :=
  z.real * z.real + z.imag * z.imag

/-- Source `Complex::magnitude`: `(real*real + imag*imag).sqrt()`. -/
noncomputable def Complex.magnitude (z : Complex ℝ) : ℝ :=
  Real.sqrt (z.real * z.real + z.imag * z.imag)

/-- Source `impl Add for Complex`: component-wise. -/
instance [Add α] : Add (Complex α) :=
  ⟨fun z w => ⟨z.real + w.real, z.imag + w.imag⟩⟩

/-- Source `impl Sub for Complex`: component-wise. -/
instance [Sub α] : Sub (Complex α) :=
  ⟨fun z w => ⟨z.real - w.real, z.imag - w.imag⟩⟩

/-- Source `impl Mul for Complex`: `(ac - bd, ad + bc)`. -/
instance [Mul α] [Add α] [Sub α] : Mul (Complex α) :=
  ⟨fun z w => ⟨z.real * w.real - z.imag * w.imag,
               z.real * w.imag + z.imag * w.real⟩⟩

/-- Source `impl Neg for Complex`: negates both components. -/
instance [Neg α] : Neg (Complex α) :=
  ⟨fun z => ⟨-z.real, -z.imag⟩⟩

/-- Source `impl Div<f64> for Complex`: divides both components by the scalar. -/
def Complex.divScalar [Div α] (z : Complex α) (s : α) : Complex α :=
  ⟨z.real / s, z.imag / s⟩

/-! ### The string parser (source `impl FromStr for Complex`)

The parser returns `Err(String)` in the source with three distinct
messages: `"Empty string"`, `"Invalid real part: …"`, and
`"Invalid imaginary part: …"`; they are embedded as `ParseErr`. -/

/-- The three parse-error classes produced by `Complex::from_str`. -/
inductive ParseErr where
  | emptyString
  | invalidReal
  | invalidImag
deriving DecidableEq

/-- ASCII digit test (Rust float literals use ASCII digits `0`–`9`). -/
def isDigitC (c : Char) : Bool := decide (48 ≤ c.toNat ∧ c.toNat ≤ 57)

/-- Numeric value of an ASCII digit. -/
def digitVal (c : Char) : ℕ := c.toNat - 48

/-- Value of a digit string read left to right. -/
def digitsToNat (l : List Char) : ℕ := l.foldl (fun n c => 10 * n + digitVal c) 0

/-- `10 ^ n` as a rational, by plain recursion. -/
def pow10 : ℕ → ℚ
  | 0 => 1
  | n + 1 => 10 * pow10 n

/-- Whitespace recognised by `str::trim` (the ASCII cases suffice here). -/
def isWS (c : Char) : Bool :=
  decide (c.toNat = 32 ∨ c.toNat = 9 ∨ c.toNat = 10 ∨ c.toNat = 13)

/-- Model of `s.trim()`: strip whitespace from both ends. -/
def trimChars (l : List Char) : List Char :=
  ((l.dropWhile isWS).reverse.dropWhile isWS).reverse

/-- Model of `s.trim_end_matches('i')`: strip every trailing `i`. -/
def trimEndI (l : List Char) : List Char :=
  (l.reverse.dropWhile (fun c => c = 'i')).reverse

/-- Character that is not an exponent marker (`e`/`E`). -/
def notExpChar (c : Char) : Bool := decide (¬ (c = 'e' ∨ c = 'E'))

/-- Mantissa of a Rust float literal: `Digits ['.'] [Digits]` or `['.'] Digits`,
with at least one digit; value as an exact rational. -/
def parseMantissa (l : List Char) : Option ℚ :=
  let intPart := l.takeWhile isDigitC
  let rest := l.dropWhile isDigitC
  match rest with
  | [] => if intPart = [] then none else some (digitsToNat intPart)
  | '.' :: frac =>
    if frac.all isDigitC ∧ (intPart ≠ [] ∨ frac ≠ []) then
      some ((digitsToNat intPart : ℚ) + (digitsToNat frac : ℚ) / pow10 frac.length)
    else none
  | _ => none

/-- Exponent of a Rust float literal: optional sign then a nonempty digit string. -/
def parseExp (l : List Char) : Option ℤ :=
  match l with
  | [] => none
  | c :: rest =>
    if c = '+' then
      if rest ≠ [] ∧ rest.all isDigitC then some (digitsToNat rest) else none
    else if c = '-' then
      if rest ≠ [] ∧ rest.all isDigitC then some (-(digitsToNat rest : ℤ)) else none
    else if l.all isDigitC then some (digitsToNat l) else none

/-- `10 ^ e` for a signed exponent. -/
def qpow10 (e : ℤ) : ℚ := if 0 ≤ e then pow10 e.toNat else 1 / pow10 e.natAbs

/-- Unsigned Rust float literal: mantissa, then an optional `e`/`E` exponent. -/
def parseUnsigned (l : List Char) : Option ℚ :=
  let mant := l.takeWhile notExpChar
  let rest := l.dropWhile notExpChar
  match rest with
  | [] => parseMantissa mant
  | _ :: expPart =>
    (parseMantissa mant).bind fun m => (parseExp expPart).map fun e => m * qpow10 e

/-- Model of Rust `s.parse::<f64>()` on finite numeric literals:
optional sign, then an unsigned literal; exact rational value. -/
def parseFloat (l : List Char) : Option ℚ :=
  match l with
  | [] => none
  | c :: rest =>
    if c = '+' then parseUnsigned rest
    else if c = '-' then (parseUnsigned rest).map (fun q => -q)
    else parseUnsigned (c :: rest)

/-- The term splitter of `Complex::from_str` (source lines 320–339): scan left
to right, starting a new term at each `+`/`-` that is not immediately preceded
by `e`/`E`; `current` is the term being accumulated, `last` the previous
character (initially a space). -/
def splitTerms : List Char → List Char → Char → List (List Char)
  | [], current, _ => if current = [] then [] else [current]
  | c :: rest, current, last =>
    if (c = '+' ∨ c = '-') ∧ ¬ last = 'e' ∧ ¬ last = 'E' then
      if current = [] then splitTerms rest [c] c
      else current :: splitTerms rest [c] c
    else splitTerms rest (current ++ [c]) c

/-- Classification and value of one split term (body of the source's
`for part in parts` loop): a term containing `i` is an imaginary term (empty
mantissa means `1`, bare `-` means `-1`, bare `+` means `1`), any other term
is a real term parsed as a float. -/
def termValue (p : List Char) : Except ParseErr (Bool × ℚ) :=
  if 'i' ∈ p then
    let istr := trimEndI p
    if istr = [] then .ok (true, 1)
    else if istr = ['-'] then .ok (true, -1)
    else if istr = ['+'] then .ok (true, 1)
    else
      match parseFloat istr with
      | some v => .ok (true, v)
      | none => .error .invalidImag
  else
    match parseFloat p with
    | some v => .ok (false, v)
    | none => .error .invalidReal

/-- The source's `for part in parts` loop: each new real (resp. imaginary)
term overwrites the accumulator, so the last of each kind wins. -/
def parsePartsLoop : List (List Char) → ℚ → ℚ → Except ParseErr (Complex ℚ)
  | [], r, im => .ok ⟨r, im⟩
  | p :: ps, r, im =>
    match termValue p with
    | .error e => .error e
    | .ok (true, v) => parsePartsLoop ps r v
    | .ok (false, v) => parsePartsLoop ps v im

/-- `Complex::from_str` (source lines 293–365): trim; empty string is an
error; no `i` means a pure real; no `+`/`-` anywhere means a pure imaginary
(with the empty/bare-`-` coefficient rules); otherwise split into signed
terms and run the parts loop starting from `(0, 0)`. -/
def fromStrChars (l : List Char) : Except ParseErr (Complex ℚ) :=
  let s := trimChars l
  if s = [] then .error .emptyString
  else if ¬ ('i' ∈ s) then
    match parseFloat s with
    | some r => .ok ⟨r, 0⟩
    | none => .error .invalidReal
  else if ¬ ('+' ∈ s) ∧ ¬ ('-' ∈ s) then
    let istr := trimEndI s
    if istr = [] then .ok ⟨0, 1⟩
    else if istr = ['-'] then .ok ⟨0, -1⟩
    else
      match parseFloat istr with
      | some v => .ok ⟨0, v⟩
      | none => .error .invalidImag
  else parsePartsLoop (splitTerms s [] ' ') 0 0

/-- `Complex::from_str` on a Lean string. -/
def Complex.fromStr (s : String) : Except ParseErr (Complex ℚ) :=
  fromStrChars s.data

/-! ### Angle (source src/complex/angle.rs)

Real-valued; `f64 % 360.0` is Rust's truncating remainder, embedded as
`fmod` below. -/

/-- Source enum `Angle { Degree(f64), Radian(f64) }`. -/
inductive Angle where
  | Degree : ℝ → Angle
  | Radian : ℝ → Angle

/-- Source `Angle::from_degrees`. -/
def Angle.from_degrees (d : ℝ) : Angle := Angle.Degree d

/-- Source `Angle::from_radians`. -/
def Angle.from_radians (r : ℝ) : Angle := Angle.Radian r

/-- Source `Angle::to_degrees`: radians convert via `* 180 / π`. -/
noncomputable def Angle.to_degrees : Angle → ℝ
  | Angle.Degree d => d
  | Angle.Radian r => r * 180 / Real.pi

/-- Source `Angle::to_radians`: degrees convert via `* π / 180`. -/
noncomputable def Angle.to_radians : Angle → ℝ
  | Angle.Degree d => d * Real.pi / 180
  | Angle.Radian r => r

/-- Truncation toward zero, as performed by Rust's `%` on `f64`. -/
noncomputable def truncR (x : ℝ) : ℝ :=
  if x < 0 then (⌈x⌉ : ℝ) else (⌊x⌋ : ℝ)

/-- Rust's `%` on `f64`: `x - y * trunc(x / y)` (sign follows the dividend). -/
noncomputable def fmod (x y : ℝ) : ℝ := x - y * truncR (x / y)

open Classical in
/-- Source `Angle::normalize` (lines 207–212): convert to degrees, take
`degrees % 360.0`, add `360.0` if negative, tag the result as `Degree`. -/
noncomputable def Angle.normalize (a : Angle) : Angle :=
  let degrees := a.to_degrees
  let normalized := fmod degrees 360
  let result := if normalized < 0 then normalized + 360 else normalized
  Angle.Degree result

/-! ### ComplexVector (source src/complex/vector.rs)

The `assert!`s on dimension mismatch and on zero-vector normalisation are
embedded as `Option`: `none` is the panic. -/

/-- Source struct `ComplexVector { components: Vec<Complex> }`. -/
structure ComplexVector where
  components : List (Complex ℝ)

/-- Source `ComplexVector::new`. -/
def ComplexVector.new (components : List (Complex ℝ)) : ComplexVector :=
  ⟨components⟩

/-- Source `ComplexVector::zeros`. -/
def ComplexVector.zeros (dimension : ℕ) : ComplexVector :=
  ⟨List.replicate dimension ⟨0, 0⟩⟩

/-- Source `ComplexVector::dimension`: the component count. -/
def ComplexVector.dimension (v : ComplexVector) : ℕ := v.components.length

/-- Source `ComplexVector::is_zero`: every component has `real == 0.0` and
`imag == 0.0` exactly. -/
def ComplexVector.is_zero (v : ComplexVector) : Prop :=
  ∀ c ∈ v.components, c.real = 0 ∧ c.imag = 0

/-- Source `ComplexVector::norm_squared`: sum of component `magnitude_squared`. -/
def ComplexVector.norm_squared (v : ComplexVector) : ℝ :=
  (v.components.map Complex.magnitude_squared).sum

/-- Source `ComplexVector::norm`: square root of the sum of squared magnitudes. -/
noncomputable def ComplexVector.norm (v : ComplexVector) : ℝ :=
  Real.sqrt v.norm_squared

/-- Source `ComplexVector::inner_product`: `assert_eq!` on dimensions, then
`Σ self[i] * conj(other[i])`. -/
def ComplexVector.inner_product (v w : ComplexVector) : Option (Complex ℝ) :=
  if v.dimension = w.dimension then
    some ((List.zipWith (fun a b => a * b.conjugate) v.components w.components).foldl
      (· + ·) ⟨0, 0⟩)
  else none

open Classical in
/-- Source `ComplexVector::normalize`: `assert!(norm != 0.0)`, then divide
every component by the norm. -/
noncomputable def ComplexVector.normalize (v : ComplexVector) : Option ComplexVector :=
  if v.norm = 0 then none
  else some ⟨v.components.map (fun c => c.divScalar v.norm)⟩

/-- Source `impl Add for ComplexVector`: `assert_eq!` on dimensions, then
component-wise addition. -/
def ComplexVector.add (v w : ComplexVector) : Option ComplexVector :=
  if v.dimension = w.dimension then
    some ⟨List.zipWith (· + ·) v.components w.components⟩
  else none

/-- Source `impl Sub for ComplexVector`: `assert_eq!` on dimensions, then
component-wise subtraction. -/
def ComplexVector.sub (v w : ComplexVector) : Option ComplexVector :=
  if v.dimension = w.dimension then
    some ⟨List.zipWith (· - ·) v.components w.components⟩
  else none

/-! ### Matrix (source src/linalg/matrix.rs)

Row-major storage; element `(row, col)` lives at flat index
`row * cols + col`. `assert!`s and panicking `Vec` indexing are embedded as
`Option`. -/

/-- Source struct `Matrix<T> { rows, cols, data }`. -/
structure Matrix (α : Type) where
  rows : ℕ
  cols : ℕ
  data : List α
deriving DecidableEq

/-- The representation invariant stated by the spec:
`data.len() == rows * cols`. -/
def Matrix.Wf (M : Matrix α) : Prop := M.data.length = M.rows * M.cols

/-- Source `Matrix::new`: `assert_eq!(data.len(), rows * cols)`. -/
def Matrix.new (rows cols : ℕ) (data : List α) : Option (Matrix α) :=
  if data.length = rows * cols then some ⟨rows, cols, data⟩ else none

/-- Source `Matrix::zeros`: `vec![T::default(); rows * cols]`. -/
def Matrix.zeros (α : Type) [Inhabited α] (rows cols : ℕ) : Matrix α :=
  ⟨rows, cols, List.replicate (rows * cols) default⟩

/-- Source `Matrix::get`: `&self.data[row * self.cols + col]` — the `Vec`
index panics (here: `none`) exactly when the flat index reaches `data.len()`. -/
def Matrix.get (M : Matrix α) (row col : ℕ) : Option α :=
  M.data.get? (row * M.cols + col)

/-- In-bounds element read used by the matrix algorithms; under `Wf` and
valid indices it coincides with `Matrix.get`. -/
def Matrix.getD [Inhabited α] (M : Matrix α) (row col : ℕ) : α :=
  M.data.getD (row * M.cols + col) default

/-- Source `Matrix::set`: `self.data[row * self.cols + col] = value` — the
`Vec` index panics (here: `none`) exactly when the flat index reaches
`data.len()`. -/
def Matrix.set (M : Matrix α) (row col : ℕ) (value : α) : Option (Matrix α) :=
  if row * M.cols + col < M.data.length then
    some ⟨M.rows, M.cols, M.data.set (row * M.cols + col) value⟩
  else none

/-- Row-major table of the values `f i j` for `i < R`, `j < C`: the result
of the source's zero-fill-then-`set`-every-slot loops. -/
def mkData (R C : ℕ) (f : ℕ → ℕ → α) : List α :=
  (List.range R).flatMap (fun i => (List.range C).map (f i))

/-- Source `impl Add for Matrix<T>`: `assert_eq!` on both dimensions, then
element-wise addition over the flat data. -/
def Matrix.add [Add α] (A B : Matrix α) : Option (Matrix α) :=
  if A.rows = B.rows ∧ A.cols = B.cols then
    some ⟨A.rows, A.cols, List.zipWith (· + ·) A.data B.data⟩
  else none

/-- Source `impl Sub for Matrix<T>`: `assert_eq!` on both dimensions, then
element-wise subtraction over the flat data. -/
def Matrix.sub [Sub α] (A B : Matrix α) : Option (Matrix α) :=
  if A.rows = B.rows ∧ A.cols = B.cols then
    some ⟨A.rows, A.cols, List.zipWith (· - ·) A.data B.data⟩
  else none

/-- Source `impl Neg for Matrix<T>`: element-wise negation. -/
def Matrix.neg [Neg α] (M : Matrix α) : Matrix α :=
  ⟨M.rows, M.cols, M.data.map (fun x => -x)⟩

/-- Source `Matrix::<Complex>::identity`: `Complex(1, 0)` on the diagonal,
`Complex(0, 0)` elsewhere. -/
def Matrix.identity (size : ℕ) : Matrix (Complex ℝ) :=
  ⟨size, size, mkData size size (fun i j => if i = j then ⟨1, 0⟩ else ⟨0, 0⟩)⟩

/-- The unchecked triple loop of `impl Mul for &Matrix<Complex>`:
`result[i][j] = Σ_k self[i][k] * other[k][j]`, `sum` starting from
`Complex::new(0.0, 0.0)`. -/
def Matrix.mulU (A B : Matrix (Complex ℝ)) : Matrix (Complex ℝ) :=
  ⟨A.rows, B.cols, mkData A.rows B.cols (fun i j =>
    (List.range A.cols).foldl (fun sum k => sum + A.getD i k * B.getD k j) ⟨0, 0⟩)⟩

/-- Source `impl Mul for &Matrix<Complex>`: `assert_eq!(self.cols, other.rows)`,
then the triple loop. -/
def Matrix.mul (A B : Matrix (Complex ℝ)) : Option (Matrix (Complex ℝ)) :=
  if A.cols = B.rows then some (A.mulU B) else none

/-- Source `Matrix::<Complex>::conjugate_transpose`:
`result[col][row] = self[row][col].conjugate()`, dimensions swapped. -/
def Matrix.conjugate_transpose (M : Matrix (Complex ℝ)) : Matrix (Complex ℝ) :=
  ⟨M.cols, M.rows, mkData M.cols M.rows (fun c r => (M.getD r c).conjugate)⟩

/-- Source `Matrix::<Complex>::is_unitary` (lines 318–337): `false` if
non-square; otherwise every entry of `self * self.conjugate_transpose()`
must differ from the identity by a complex number of magnitude not
exceeding `1e-10` (the source loop returns `false` on the first entry with
`diff.magnitude() > 1e-10`). -/
noncomputable def Matrix.is_unitary (M : Matrix (Complex ℝ)) : Prop :=
  if M.rows = M.cols then
    ∀ i ∈ List.range M.rows, ∀ j ∈ List.range M.rows,
      ¬ ((M.mulU M.conjugate_transpose).getD i j -
          (Matrix.identity M.rows).getD i j).magnitude > 1e-10
  else False

/-- Whether a term classifies and parses successfully (no parse error). -/
def isOkT : Except ParseErr (Bool × ℚ) → Bool
  | .ok _ => true
  | .error _ => false

/-- The values of the real terms (no `i`) of a part list, in scan order. -/
def realTermValues (ps : List (List Char)) : List ℚ :=
  ps.filterMap fun p =>
    match termValue p with
    | .ok (false, v) => some v
    | _ => none

/-- The values of the imaginary terms (with `i`) of a part list, in scan order. -/
def imagTermValues (ps : List (List Char)) : List ℚ :=
  ps.filterMap fun p =>
    match termValue p with
    | .ok (true, v) => some v
    | _ => none

/-- A concrete 1×1 complex matrix used to instantiate universally
quantified matrix statements. -/
def unitWitnessM : Matrix (Complex ℝ) := ⟨1, 1, [⟨1, 0⟩]⟩

/-- A mantissa character of a float literal: an ASCII digit or a decimal
point. Used to describe the shape of the inputs in the exponent-splitting
statement. -/
def isMantChar (c : Char) : Bool := isDigitC c || decide (c = '.')

/-! ## Theorems -/

theorem getLastD_cons (c d : β) (l : List β) : (c :: l).getLastD d = l.getLastD c := by
  cases l <;> simp [List.getLastD]

/-- C1: Parsing a Complex from a string yields: "2+3i" gives (2, 3);
"-1.5-2.5i" gives (-1.5, -2.5); "3i" gives (0, 3); "-i" gives (0, -1);
"5" gives (5, 0); and the empty string (also after trimming) fails with the
empty-string error, which is distinct from the real-part and
imaginary-part parse errors. -/
theorem spec_c1_parse_examples :
    Complex.fromStr "2+3i" = .ok ⟨2, 3⟩
    ∧ Complex.fromStr "-1.5-2.5i" = .ok ⟨-1.5, -2.5⟩
    ∧ Complex.fromStr "3i" = .ok ⟨0, 3⟩
    ∧ Complex.fromStr "-i" = .ok ⟨0, -1⟩
    ∧ Complex.fromStr "5" = .ok ⟨5, 0⟩
    ∧ Complex.fromStr "" = .error .emptyString
    ∧ Complex.fromStr "  " = .error .emptyString
    ∧ ParseErr.emptyString ≠ ParseErr.invalidReal
    ∧ ParseErr.emptyString ≠ ParseErr.invalidImag := by
  refine ⟨?_, ?_, ?_, ?_, ?_, ?_, ?_, by decide, by decide⟩ <;>
  · simp [Complex.fromStr, fromStrChars, trimChars, isWS, splitTerms, parsePartsLoop,
      termValue, trimEndI, parseFloat, parseUnsigned, notExpChar, parseMantissa,
      isDigitC, digitsToNat, digitVal, pow10, List.takeWhile, List.dropWhile]
    try norm_num

/-- C3: when several terms of the same kind appear, the last real term and
the last imaginary term (in scan order) win and no duplicate-term error is
raised: whenever every part classifies and parses successfully, the parts
loop returns the last real value and the last imaginary value (falling back
to the accumulators), and in particular "1+2+3i" parses to (2, 3). -/
theorem spec_c3_last_term_wins :
    (∀ ps r i, (∀ p ∈ ps, isOkT (termValue p) = true) →
      parsePartsLoop ps r i =
        .ok ⟨(realTermValues ps).getLastD r, (imagTermValues ps).getLastD i⟩)
    ∧ Complex.fromStr "1+2+3i" = .ok ⟨2, 3⟩ := by
  constructor
  · intro ps
    induction ps with
    | nil => intro r i _; simp [parsePartsLoop, realTermValues, imagTermValues]
    | cons p ps ih =>
      intro r i h
      have hp := h p (List.mem_cons_self p ps)
      match htv : termValue p with
      | .error e => rw [htv] at hp; simp [isOkT] at hp
      | .ok (true, v) =>
        have hr : realTermValues (p :: ps) = realTermValues ps := by
          simp [realTermValues, List.filterMap_cons, htv]
        have hi : imagTermValues (p :: ps) = v :: imagTermValues ps := by
          simp [imagTermValues, List.filterMap_cons, htv]
        simp only [parsePartsLoop, htv]
        rw [hr, hi, getLastD_cons]
        exact ih _ _ (fun q hq => h q (List.mem_cons_of_mem p hq))
      | .ok (false, v) =>
        have hr : realTermValues (p :: ps) = v :: realTermValues ps := by
          simp [realTermValues, List.filterMap_cons, htv]
        have hi : imagTermValues (p :: ps) = imagTermValues ps := by
          simp [imagTermValues, List.filterMap_cons, htv]
        simp only [parsePartsLoop, htv]
        rw [hr, hi, getLastD_cons]
        exact ih _ _ (fun q hq => h q (List.mem_cons_of_mem p hq))
  · simp [Complex.fromStr, fromStrChars, trimChars, isWS, splitTerms, parsePartsLoop,
      termValue, trimEndI, parseFloat, parseUnsigned, notExpChar, parseMantissa,
      isDigitC, digitsToNat, digitVal, pow10, List.takeWhile, List.dropWhile]

/-- Witness for C3 at the concrete part list of "1+2+3i". -/
theorem spec_c3_last_term_wins_witness :
    (∀ p ∈ [['1'], ['+', '2'], ['+', '3', 'i']], isOkT (termValue p) = true)
    ∧ parsePartsLoop [['1'], ['+', '2'], ['+', '3', 'i']] 0 0 =
        .ok ⟨(realTermValues [['1'], ['+', '2'], ['+', '3', 'i']]).getLastD 0,
             (imagTermValues [['1'], ['+', '2'], ['+', '3', 'i']]).getLastD 0⟩ :=
  ⟨by decide, spec_c3_last_term_wins.1 _ 0 0 (by decide)⟩

/-! ### Indexing lemmas for row-major tables -/

theorem mkData_succ (R C : ℕ) (f : ℕ → ℕ → α) :
    mkData (R + 1) C f = (List.range C).map (f 0) ++ mkData R C (fun a => f (a + 1)) := by
  simp [mkData, List.range_succ_eq_map, List.flatMap_map, Function.comp_def]

theorem mkData_length (R C : ℕ) (f : ℕ → ℕ → α) : (mkData R C f).length = R * C := by
  induction R generalizing f with
  | zero => simp [mkData]
  | succ R ih => rw [mkData_succ]; simp [ih, Nat.succ_mul, Nat.add_comm]

theorem mkData_get? (R C i j : ℕ) (f : ℕ → ℕ → α) (hi : i < R) (hj : j < C) :
    (mkData R C f).get? (i * C + j) = some (f i j) := by
  induction R generalizing f i with
  | zero => exact absurd hi (Nat.not_lt_zero i)
  | succ R ih =>
    rw [mkData_succ]
    cases i with
    | zero =>
      simp only [Nat.zero_mul, Nat.zero_add]
      rw [List.get?_append (by simpa using hj)]
      rw [List.get?_map, List.get?_range hj]
      rfl
    | succ i =>
      rw [List.get?_append_right (by simp [Nat.succ_mul]; omega)]
      have harith : (i + 1) * C + j - ((List.range C).map (f 0)).length = i * C + j := by
        simp [Nat.succ_mul]; omega
      rw [harith]
      exact ih i (fun a => f (a + 1)) (Nat.lt_of_succ_lt_succ hi)

theorem get?_getD_of_lt [Inhabited β] (l : List β) (n : ℕ) (h : n < l.length) :
    l.get? n = some (l.getD n default) := by
  simp [List.getD_eq_getElem?_getD, List.get?_eq_getElem?, List.getElem?_eq_getElem h]

theorem mkData_getD [Inhabited α] (R C i j : ℕ) (f : ℕ → ℕ → α) (hi : i < R) (hj : j < C) :
    (mkData R C f).getD (i * C + j) default = f i j := by
  have h := mkData_get? R C i j f hi hj
  simp [List.getD_eq_getElem?_getD, ← List.get?_eq_getElem?, h]

/-- C5: every contract violation — vector add/sub/inner-product with unequal
dimensions, normalize of a zero vector, `Matrix::new` with a data length
different from `rows*cols`, and matrix multiplication with
`self.cols != other.rows` — terminates the operation at once with no value
and no partial output (embedded as `none`). -/
theorem spec_c5_contract_violations :
    (∀ v w : ComplexVector, v.dimension ≠ w.dimension →
      v.add w = none ∧ v.sub w = none ∧ v.inner_product w = none)
    ∧ (∀ v : ComplexVector, v.is_zero → v.normalize = none)
    ∧ (∀ (rows cols : ℕ) (d : List (Complex ℝ)), d.length ≠ rows * cols →
        Matrix.new rows cols d = none)
    ∧ (∀ A B : Matrix (Complex ℝ), A.cols ≠ B.rows → A.mul B = none) := by
  refine ⟨fun v w h => ⟨?_, ?_, ?_⟩, fun v hz => ?_, fun r c d h => ?_, fun A B h => ?_⟩
  · simp [ComplexVector.add, h]
  · simp [ComplexVector.sub, h]
  · simp [ComplexVector.inner_product, h]
  · have hsq : v.norm_squared = 0 := by
      refine List.sum_eq_zero fun x hx => ?_
      obtain ⟨c, hc, rfl⟩ := List.mem_map.mp hx
      obtain ⟨h1, h2⟩ := hz c hc
      simp [Complex.magnitude_squared, h1, h2]
    have hn : v.norm = 0 := by simp [ComplexVector.norm, hsq]
    simp [ComplexVector.normalize, hn]
  · simp [Matrix.new, h]
  · simp [Matrix.mul, h]

/-- Witness for C5 at a 1-dimensional vs 0-dimensional vector pair. -/
theorem spec_c5_contract_violations_witness :
    (⟨[⟨1, 0⟩]⟩ : ComplexVector).dimension ≠ (⟨[]⟩ : ComplexVector).dimension
    ∧ ((⟨[⟨1, 0⟩]⟩ : ComplexVector).add ⟨[]⟩ = none
      ∧ (⟨[⟨1, 0⟩]⟩ : ComplexVector).sub ⟨[]⟩ = none
      ∧ (⟨[⟨1, 0⟩]⟩ : ComplexVector).inner_product ⟨[]⟩ = none) :=
  ⟨by decide, spec_c5_contract_violations.1 _ _ (by decide)⟩

/-- C9: every matrix reachable through the public constructors and
operations satisfies `data.len() == rows * cols`, and `Matrix::new` with a
mismatched data length fails at once (constructs nothing). -/
theorem spec_c9_wf_invariant {α : Type} [Inhabited α] [Add α] [Sub α] [Neg α] :
    (∀ (r c : ℕ) (d : List α) (M : Matrix α), Matrix.new r c d = some M → M.Wf)
    ∧ (∀ (r c : ℕ) (d : List α), d.length ≠ r * c →
        Matrix.new r c d = (none : Option (Matrix α)))
    ∧ (∀ r c : ℕ, (Matrix.zeros α r c).Wf)
    ∧ (∀ n : ℕ, (Matrix.identity n).Wf)
    ∧ (∀ (M : Matrix α) (r c : ℕ) (v : α) (M' : Matrix α),
        M.Wf → M.set r c v = some M' → M'.Wf)
    ∧ (∀ A B M : Matrix α, A.Wf → B.Wf → Matrix.add A B = some M → M.Wf)
    ∧ (∀ A B M : Matrix α, A.Wf → B.Wf → Matrix.sub A B = some M → M.Wf)
    ∧ (∀ M : Matrix α, M.Wf → (Matrix.neg M).Wf)
    ∧ (∀ A B M : Matrix (Complex ℝ), Matrix.mul A B = some M → M.Wf)
    ∧ (∀ M : Matrix (Complex ℝ), M.conjugate_transpose.Wf) := by
  refine ⟨fun r c d M h => ?_, fun r c d h => ?_, fun r c => ?_, fun n => ?_,
    fun M r c v M' hw h => ?_, fun A B M ha hb h => ?_, fun A B M ha hb h => ?_,
    fun M hw => ?_, fun A B M h => ?_, fun M => ?_⟩
  · by_cases hl : d.length = r * c
    · simp only [Matrix.new, if_pos hl] at h
      cases h; exact hl
    · simp [Matrix.new, hl] at h
  · simp [Matrix.new, h]
  · simp [Matrix.Wf, Matrix.zeros]
  · simp [Matrix.Wf, Matrix.identity, mkData_length]
  · by_cases hl : r * M.cols + c < M.data.length
    · simp only [Matrix.set, if_pos hl] at h
      cases h; simpa [Matrix.Wf] using hw
    · simp [Matrix.set, hl] at h
  · by_cases hd : A.rows = B.rows ∧ A.cols = B.cols
    · simp only [Matrix.add, if_pos hd] at h
      cases h
      simp only [Matrix.Wf, List.length_zipWith]
      rw [ha, hb, hd.1, hd.2, min_self]
    · simp [Matrix.add, hd] at h
  · by_cases hd : A.rows = B.rows ∧ A.cols = B.cols
    · simp only [Matrix.sub, if_pos hd] at h
      cases h
      simp only [Matrix.Wf, List.length_zipWith]
      rw [ha, hb, hd.1, hd.2, min_self]
    · simp [Matrix.sub, hd] at h
  · simpa [Matrix.Wf, Matrix.neg] using hw
  · by_cases hd : A.cols = B.rows
    · simp only [Matrix.mul, if_pos hd] at h
      cases h; simp [Matrix.Wf, Matrix.mulU, mkData_length]
    · simp [Matrix.mul, hd] at h
  · simp [Matrix.Wf, Matrix.conjugate_transpose, mkData_length]

/-- Witness for C9: a successful `Matrix::new` yields a well-formed matrix. -/
theorem spec_c9_wf_invariant_witness :
    Matrix.new 1 2 [(1 : ℤ), 2] = some ⟨1, 2, [1, 2]⟩
    ∧ (⟨1, 2, [(1 : ℤ), 2]⟩ : Matrix ℤ).Wf :=
  ⟨by decide, spec_c9_wf_invariant.1 1 2 [(1 : ℤ), 2] _ (by decide)⟩

/-- C10: `Matrix::get` and `Matrix::set` validate only the flattened index
`row * cols + col` against the data length: with `col ≥ cols` but
`row * cols + col < rows * cols`, `get` succeeds and returns the element at
the flat position (an element of a different logical row); an access fails
exactly when the flat index reaches `data.len()`. -/
theorem spec_c10_flat_index_only {α : Type} :
    (∀ (M : Matrix α) (row col : ℕ), M.Wf → M.cols ≤ col →
      row * M.cols + col < M.rows * M.cols →
      M.get row col = M.data.get? (row * M.cols + col)
      ∧ ∃ x, M.get row col = some x ∧ M.data.get? (row * M.cols + col) = some x)
    ∧ (∀ (M : Matrix α) (row col : ℕ), M.data.length ≤ row * M.cols + col →
        M.get row col = none)
    ∧ (∀ (M : Matrix α) (row col : ℕ) (v : α), row * M.cols + col < M.data.length →
        ∃ M', M.set row col v = some M')
    ∧ (∀ (M : Matrix α) (row col : ℕ) (v : α), M.data.length ≤ row * M.cols + col →
        M.set row col v = none) := by
  refine ⟨fun M row col hw hc hlt => ⟨rfl, ?_⟩, fun M row col h => ?_,
    fun M row col v h => ?_, fun M row col v h => ?_⟩
  · have hl : row * M.cols + col < M.data.length := by rw [hw]; exact hlt
    exact ⟨M.data.get ⟨_, hl⟩, List.get?_eq_get hl, List.get?_eq_get hl⟩
  · exact List.get?_eq_none.mpr h
  · exact ⟨⟨M.rows, M.cols, M.data.set (row * M.cols + col) v⟩,
      by simp only [Matrix.set, if_pos h]⟩
  · simp only [Matrix.set]
    exact if_neg (Nat.not_lt.mpr h)

/-- Witness for C10: in the 2×2 matrix [1 2; 3 4], the out-of-column access
(0, 2) succeeds and returns 3, the first element of row 1. -/
theorem spec_c10_flat_index_only_witness :
    ((⟨2, 2, [(1 : ℚ), 2, 3, 4]⟩ : Matrix ℚ).get 0 2 =
        (⟨2, 2, [(1 : ℚ), 2, 3, 4]⟩ : Matrix ℚ).data.get? (0 * 2 + 2)
      ∧ ∃ x, (⟨2, 2, [(1 : ℚ), 2, 3, 4]⟩ : Matrix ℚ).get 0 2 = some x
          ∧ (⟨2, 2, [(1 : ℚ), 2, 3, 4]⟩ : Matrix ℚ).data.get? (0 * 2 + 2) = some x)
    ∧ (⟨2, 2, [(1 : ℚ), 2, 3, 4]⟩ : Matrix ℚ).get 0 2 = some 3 :=
  ⟨spec_c10_flat_index_only.1 _ 0 2 rfl (by decide) (by decide), rfl⟩

theorem conjugate_conjugate (z : Complex ℝ) : z.conjugate.conjugate = z := by
  cases z; simp [Complex.conjugate]

/-- C8: for every well-formed complex matrix, applying the conjugate
transpose twice gives back the original matrix (rows, cols, and all
entries), where one application places `conjugate(self[i][j])` at
`result[j][i]` and swaps the dimensions. -/
theorem spec_c8_conjugate_transpose_involution (M : Matrix (Complex ℝ)) (hw : M.Wf) :
    M.conjugate_transpose.conjugate_transpose = M := by
  cases M with
  | mk R C d =>
    have hw' : d.length = R * C := hw
    show (⟨R, C, mkData R C _⟩ : Matrix (Complex ℝ)) = ⟨R, C, d⟩
    congr 1
    apply List.ext_get?
    intro n
    by_cases hn : n < R * C
    · have hC : 0 < C := by
        rcases Nat.eq_zero_or_pos C with h0 | h
        · subst h0; simp at hn
        · exact h
      have hj : n % C < C := Nat.mod_lt _ hC
      have hi : n / C < R := (Nat.div_lt_iff_lt_mul hC).mpr hn
      have hmod := Nat.div_add_mod n C
      rw [Nat.mul_comm] at hmod
      rw [← hmod]
      rw [mkData_get? R C _ _ _ hi hj]
      have hlt : n / C * C + n % C < d.length := by rw [hw', hmod]; exact hn
      rw [get?_getD_of_lt d _ hlt]
      have hN : (Matrix.conjugate_transpose ⟨R, C, d⟩).getD (n % C) (n / C) =
          ((⟨R, C, d⟩ : Matrix (Complex ℝ)).getD (n / C) (n % C)).conjugate := by
        show (mkData C R _).getD (n % C * R + n / C) default = _
        exact mkData_getD C R _ _ _ hj hi
      rw [hN, conjugate_conjugate]
      rfl
    · rw [List.get?_eq_none.mpr (by rw [mkData_length]; omega),
        List.get?_eq_none.mpr (by rw [hw']; omega)]

/-- Witness for C8 at the 1×2 matrix [1+2i, 3+4i]. -/
theorem spec_c8_conjugate_transpose_involution_witness :
    (⟨1, 2, [⟨1, 2⟩, ⟨3, 4⟩]⟩ : Matrix (Complex ℝ)).Wf
    ∧ (⟨1, 2, [⟨1, 2⟩, ⟨3, 4⟩]⟩ : Matrix (Complex ℝ)).conjugate_transpose.conjugate_transpose
        = ⟨1, 2, [⟨1, 2⟩, ⟨3, 4⟩]⟩ :=
  ⟨rfl, spec_c8_conjugate_transpose_involution _ rfl⟩

/-- C4: `is_unitary` is false for every non-square matrix; for a square
matrix it holds exactly when every entry of `self * conjugate_transpose(self)`
differs from the corresponding identity entry by a complex number of
magnitude at most `1e-10` (and the product's dimension check always
passes, so the product is the unchecked triple loop). -/
theorem spec_c4_is_unitary_characterisation :
    (∀ M : Matrix (Complex ℝ), M.rows ≠ M.cols → ¬ M.is_unitary)
    ∧ (∀ M : Matrix (Complex ℝ), M.rows = M.cols →
        M.mul M.conjugate_transpose = some (M.mulU M.conjugate_transpose)
        ∧ (M.is_unitary ↔ ∀ i < M.rows, ∀ j < M.rows,
            ((M.mulU M.conjugate_transpose).getD i j -
              (Matrix.identity M.rows).getD i j).magnitude ≤ 1e-10)) := by
  constructor
  · intro M h
    simp [Matrix.is_unitary, h]
  · intro M h
    constructor
    · simp only [Matrix.mul]
      exact if_pos (show M.cols = M.conjugate_transpose.rows from rfl)
    · unfold Matrix.is_unitary
      rw [if_pos h]
      constructor
      · intro hu i hi j hj
        exact not_lt.mp (hu i (List.mem_range.mpr hi) j (List.mem_range.mpr hj))
      · intro hu i hi j hj
        exact not_lt.mpr (hu i (List.mem_range.mp hi) j (List.mem_range.mp hj))

/-- Witness for C4 at a square 1×1 matrix. -/
theorem spec_c4_is_unitary_characterisation_witness :
    unitWitnessM.rows = unitWitnessM.cols
    ∧ (unitWitnessM.mul unitWitnessM.conjugate_transpose
        = some (unitWitnessM.mulU unitWitnessM.conjugate_transpose)
      ∧ (unitWitnessM.is_unitary ↔ ∀ i < unitWitnessM.rows, ∀ j < unitWitnessM.rows,
          ((unitWitnessM.mulU unitWitnessM.conjugate_transpose).getD i j -
            (Matrix.identity unitWitnessM.rows).getD i j).magnitude ≤ 1e-10)) :=
  ⟨rfl, spec_c4_is_unitary_characterisation.2 unitWitnessM rfl⟩

theorem fmod360_bounds (d : ℝ) : -360 < fmod d 360 ∧ fmod d 360 < 360 := by
  unfold fmod truncR
  have h360 : 360 * (d / 360) = d := by field_simp
  by_cases h : d / 360 < 0
  · rw [if_pos h]
    have h1 := Int.le_ceil (d / 360)
    have h2 := Int.ceil_lt_add_one (d / 360)
    constructor <;> nlinarith
  · rw [if_neg h]
    have h1 := Int.floor_le (d / 360)
    have h2 := Int.lt_floor_add_one (d / 360)
    constructor <;> nlinarith

/-- C6: `normalize` always returns a Degree-tagged angle whose value lies
in `[0, 360)`, and any angle whose degree value is an exact (integer)
multiple of 360 normalizes to exactly 0. -/
theorem spec_c6_normalize_range :
    (∀ a : Angle, ∃ x : ℝ, a.normalize = Angle.Degree x ∧ 0 ≤ x ∧ x < 360)
    ∧ (∀ (a : Angle) (k : ℤ), a.to_degrees = 360 * (k : ℝ) →
        a.normalize = Angle.Degree 0) := by
  constructor
  · intro a
    obtain ⟨hlo, hhi⟩ := fmod360_bounds a.to_degrees
    refine ⟨if fmod a.to_degrees 360 < 0 then fmod a.to_degrees 360 + 360
        else fmod a.to_degrees 360, rfl, ?_, ?_⟩
    · by_cases h : fmod a.to_degrees 360 < 0
      · rw [if_pos h]; linarith
      · rw [if_neg h]; linarith
    · by_cases h : fmod a.to_degrees 360 < 0
      · rw [if_pos h]; linarith
      · rw [if_neg h]; linarith
  · intro a k hk
    have h1 : a.to_degrees / 360 = (k : ℝ) := by rw [hk]; field_simp
    have h2 : truncR ((k : ℤ) : ℝ) = (k : ℝ) := by
      unfold truncR
      by_cases h : ((k : ℤ) : ℝ) < 0
      · rw [if_pos h, Int.ceil_intCast]
      · rw [if_neg h, Int.floor_intCast]
    have h3 : fmod a.to_degrees 360 = 0 := by
      unfold fmod
      rw [h1, h2, hk]; ring
    have h4 : a.normalize = Angle.Degree (if fmod a.to_degrees 360 < 0 then
        fmod a.to_degrees 360 + 360 else fmod a.to_degrees 360) := rfl
    rw [h4, h3]
    norm_num

/-- Witness for C6 at 720 degrees (an exact multiple of 360). -/
theorem spec_c6_normalize_range_witness :
    (Angle.Degree 720).to_degrees = 360 * ((2 : ℤ) : ℝ)
    ∧ (Angle.Degree 720).normalize = Angle.Degree 0 :=
  have h : (Angle.Degree 720).to_degrees = 360 * ((2 : ℤ) : ℝ) := by
    norm_num [Angle.to_degrees]
  ⟨h, spec_c6_normalize_range.2 _ 2 h⟩

theorem magnitude_squared_nonneg (z : Complex ℝ) : 0 ≤ z.magnitude_squared :=
  add_nonneg (mul_self_nonneg _) (mul_self_nonneg _)

theorem sum_pos_of_mem (l : List ℝ) (hnn : ∀ x ∈ l, 0 ≤ x) (x : ℝ)
    (hx : x ∈ l) (hpos : 0 < x) : 0 < l.sum := by
  induction l with
  | nil => cases hx
  | cons a t ih =>
    rw [List.sum_cons]
    rcases List.mem_cons.mp hx with rfl | hmem
    · have ht : 0 ≤ t.sum := List.sum_nonneg fun y hy => hnn y (List.mem_cons_of_mem _ hy)
      linarith
    · have ha : 0 ≤ a := hnn a (List.mem_cons_self a t)
      have := ih (fun y hy => hnn y (List.mem_cons_of_mem _ hy)) hmem
      linarith

theorem sum_msq_divScalar (l : List (Complex ℝ)) (n : ℝ) :
    ((l.map (fun c => c.divScalar n)).map Complex.magnitude_squared).sum
      = (l.map Complex.magnitude_squared).sum / (n * n) := by
  induction l with
  | nil => simp
  | cons c t ih =>
    simp only [List.map_cons, List.sum_cons, ih]
    simp only [Complex.divScalar, Complex.magnitude_squared]
    ring

/-- C7: for every vector that is not the zero vector, `normalize` succeeds
(no assertion failure) and the norm of the result is within `1e-10` of 1. -/
theorem spec_c7_normalize_unit_norm (v : ComplexVector) (h : ¬ v.is_zero) :
    ∃ w, v.normalize = some w ∧ |w.norm - 1| ≤ 1e-10 := by
  have hS : 0 < v.norm_squared := by
    unfold ComplexVector.is_zero at h
    push_neg at h
    obtain ⟨c, hc, hne⟩ := h
    have hpos : 0 < c.magnitude_squared := by
      rcases Classical.em (c.real = 0) with h1 | h1
      · have h2 : c.imag ≠ 0 := fun h2 => hne h1 h2
        have := mul_self_pos.mpr h2
        have := mul_self_nonneg c.real
        unfold Complex.magnitude_squared
        linarith
      · have := mul_self_pos.mpr h1
        have := mul_self_nonneg c.imag
        unfold Complex.magnitude_squared
        linarith
    exact sum_pos_of_mem _ (fun x hx => by
        obtain ⟨z, _, rfl⟩ := List.mem_map.mp hx
        exact magnitude_squared_nonneg z)
      c.magnitude_squared (List.mem_map.mpr ⟨c, hc, rfl⟩) hpos
  have hn : 0 < v.norm := Real.sqrt_pos.mpr hS
  have hne : v.norm ≠ 0 := ne_of_gt hn
  refine ⟨⟨v.components.map (fun c => c.divScalar v.norm)⟩, ?_, ?_⟩
  · simp only [ComplexVector.normalize, if_neg hne]
  · have hw : (⟨v.components.map (fun c => c.divScalar v.norm)⟩ :
        ComplexVector).norm_squared = v.norm_squared / (v.norm * v.norm) := by
      simpa only [ComplexVector.norm_squared] using
        sum_msq_divScalar v.components v.norm
    have hsq : v.norm * v.norm = v.norm_squared := Real.mul_self_sqrt (le_of_lt hS)
    have hrw : (⟨v.components.map (fun c => c.divScalar v.norm)⟩ :
        ComplexVector).norm = Real.sqrt ((⟨v.components.map
          (fun c => c.divScalar v.norm)⟩ : ComplexVector).norm_squared) := rfl
    rw [hrw, hw, hsq, div_self (ne_of_gt hS), Real.sqrt_one]
    norm_num

/-! ### Lemmas about the term splitter, for the exponent claim -/

theorem dropWhile_eq_self_of (p : Char → Bool) (l : List Char)
    (h : ∀ c ∈ l, p c = false) : l.dropWhile p = l := by
  cases l with
  | nil => rfl
  | cons a t => simp [List.dropWhile, h a (List.mem_cons_self a t)]

theorem trimChars_eq_self (l : List Char) (h : ∀ c ∈ l, isWS c = false) :
    trimChars l = l := by
  unfold trimChars
  rw [dropWhile_eq_self_of _ _ h,
    dropWhile_eq_self_of _ _ (fun c hc => h c (List.mem_reverse.mp hc)),
    List.reverse_reverse]

theorem getLastD_prop (P : Char → Prop) (l : List Char) :
    ∀ d : Char, (∀ c ∈ l, P c) → P d → P (l.getLastD d) := by
  induction l with
  | nil => intro d _ hd; exact hd
  | cons c t ih =>
    intro d h _
    rw [getLastD_cons]
    exact ih c (fun x hx => h x (List.mem_cons_of_mem c hx)) (h c (List.mem_cons_self c t))

theorem splitTerms_step (c : Char) (rest cur : List Char) (last : Char)
    (h : ¬ ((c = '+' ∨ c = '-') ∧ ¬ last = 'e' ∧ ¬ last = 'E')) :
    splitTerms (c :: rest) cur last = splitTerms rest (cur ++ [c]) c := by
  simp only [splitTerms]
  rw [if_neg h]

theorem splitTerms_split (c : Char) (hc : c = '+' ∨ c = '-') (rest cur : List Char)
    (last : Char) (hl1 : ¬ last = 'e') (hl2 : ¬ last = 'E') (hcur : ¬ cur = []) :
    splitTerms (c :: rest) cur last = cur :: splitTerms rest [c] c := by
  simp only [splitTerms]
  rw [if_pos ⟨hc, hl1, hl2⟩, if_neg hcur]

theorem splitTerms_final (cur : List Char) (last : Char) (hcur : ¬ cur = []) :
    splitTerms [] cur last = [cur] := by
  simp only [splitTerms]
  rw [if_neg hcur]

theorem splitTerms_nosplit (l : List Char) (h : ∀ c ∈ l, ¬ c = '+' ∧ ¬ c = '-') :
    ∀ (rest cur : List Char) (last : Char),
      splitTerms (l ++ rest) cur last = splitTerms rest (cur ++ l) (l.getLastD last) := by
  induction l with
  | nil => intro rest cur last; simp [List.getLastD]
  | cons c t ih =>
    intro rest cur last
    have hc := h c (List.mem_cons_self c t)
    have hcond : ¬ ((c = '+' ∨ c = '-') ∧ ¬ last = 'e' ∧ ¬ last = 'E') :=
      fun hF => hF.1.elim hc.1 hc.2
    rw [List.cons_append, splitTerms_step c (t ++ rest) cur last hcond,
      ih (fun x hx => h x (List.mem_cons_of_mem c hx)) rest (cur ++ [c]) c,
      getLastD_cons]
    simp [List.append_assoc]

theorem trimEndI_append_i (l : List Char) (h : ∀ c ∈ l, ¬ c = 'i') :
    trimEndI (l ++ ['i']) = l := by
  unfold trimEndI
  rw [List.reverse_append]
  show (List.dropWhile _ ('i' :: l.reverse)).reverse = l
  rw [List.dropWhile_cons_of_pos (by simp)]
  rw [dropWhile_eq_self_of _ _
    (fun c hc => decide_eq_false (h c (List.mem_reverse.mp hc)))]
  exact List.reverse_reverse l

theorem parseFloat_cons_plus (l : List Char) : parseFloat ('+' :: l) = parseUnsigned l := by
  simp [parseFloat]

theorem parseFloat_not_sign (c : Char) (l : List Char) (h1 : ¬ c = '+') (h2 : ¬ c = '-') :
    parseFloat (c :: l) = parseUnsigned (c :: l) := by
  simp [parseFloat, h1, h2]

theorem mantChar_facts (c : Char) (h : isMantChar c = true) :
    ¬ c = '+' ∧ ¬ c = '-' ∧ ¬ c = 'i' ∧ ¬ c = 'e' ∧ ¬ c = 'E' ∧ isWS c = false := by
  unfold isMantChar isDigitC at h
  rcases Bool.or_eq_true_iff.mp h with hd | hdot
  · have hb := of_decide_eq_true hd
    obtain ⟨h1, h2⟩ := hb
    refine ⟨fun he => ?_, fun he => ?_, fun he => ?_, fun he => ?_, fun he => ?_, ?_⟩
    · subst he; exact absurd h1 (by decide)
    · subst he; exact absurd h1 (by decide)
    · subst he; exact absurd h2 (by decide)
    · subst he; exact absurd h2 (by decide)
    · subst he; exact absurd h2 (by decide)
    · simp only [isWS, decide_eq_false_iff_not]
      omega
  · have he : c = '.' := of_decide_eq_true hdot
    subst he
    exact ⟨by decide, by decide, by decide, by decide, by decide, by decide⟩

theorem digit_isMant (c : Char) (h : isDigitC c = true) : isMantChar c = true := by
  simp [isMantChar, h]

/-- C2: a `+`/`-` immediately preceded by `e`/`E` does not start a new term,
so exponent notation stays inside one term: every input of the shape
`<a>+<b>e-<k>i` — with `a`, `b` nonempty mantissa strings that parse as
floats and `k` a nonempty digit string such that `<b>e-<k>` parses as a
float — parses successfully to real `<a>` and imaginary `<b>e-<k>`,
instead of splitting at the exponent's sign. -/
theorem spec_c2_exponent_not_split (a b k : List Char) (qa qb : ℚ)
    (ha : ∀ c ∈ a, isMantChar c = true) (hane : a ≠ [])
    (hb : ∀ c ∈ b, isMantChar c = true) (hbne : b ≠ [])
    (hk : ∀ c ∈ k, isDigitC c = true) (hkne : k ≠ [])
    (hpa : parseFloat a = some qa)
    (hpb : parseFloat (b ++ 'e' :: '-' :: k) = some qb) :
    fromStrChars (a ++ '+' :: (b ++ 'e' :: '-' :: (k ++ ['i']))) = .ok ⟨qa, qb⟩ := by
  have hkm : ∀ c ∈ k, isMantChar c = true := fun c hc => digit_isMant c (hk c hc)
  -- the input has no whitespace, so trimming is the identity
  have hsWS : ∀ c ∈ a ++ '+' :: (b ++ 'e' :: '-' :: (k ++ ['i'])), isWS c = false := by
    intro c hc
    simp only [List.mem_append, List.mem_cons, List.not_mem_nil, or_false] at hc
    rcases hc with hca | rfl | hcb | rfl | rfl | hck | rfl
    · exact (mantChar_facts c (ha c hca)).2.2.2.2.2
    · decide
    · exact (mantChar_facts c (hb c hcb)).2.2.2.2.2
    · decide
    · decide
    · exact (mantChar_facts c (hkm c hck)).2.2.2.2.2
    · decide
  have htrim : trimChars (a ++ '+' :: (b ++ 'e' :: '-' :: (k ++ ['i'])))
      = a ++ '+' :: (b ++ 'e' :: '-' :: (k ++ ['i'])) := trimChars_eq_self _ hsWS
  -- branch selection facts
  have hne : ¬ (a ++ '+' :: (b ++ 'e' :: '-' :: (k ++ ['i'])) = []) := by simp
  have hi_mem : 'i' ∈ a ++ '+' :: (b ++ 'e' :: '-' :: (k ++ ['i'])) := by simp
  have hplus_mem : '+' ∈ a ++ '+' :: (b ++ 'e' :: '-' :: (k ++ ['i'])) := by simp
  -- splitting the terms
  have hsplit : splitTerms (a ++ '+' :: (b ++ 'e' :: '-' :: (k ++ ['i']))) [] ' '
      = [a, '+' :: (b ++ 'e' :: '-' :: (k ++ ['i']))] := by
    have hanp : ∀ c ∈ a, ¬ c = '+' ∧ ¬ c = '-' := fun c hc =>
      ⟨(mantChar_facts c (ha c hc)).1, (mantChar_facts c (ha c hc)).2.1⟩
    have hbnp : ∀ c ∈ b, ¬ c = '+' ∧ ¬ c = '-' := fun c hc =>
      ⟨(mantChar_facts c (hb c hc)).1, (mantChar_facts c (hb c hc)).2.1⟩
    have hknp : ∀ c ∈ k, ¬ c = '+' ∧ ¬ c = '-' := fun c hc =>
      ⟨(mantChar_facts c (hkm c hc)).1, (mantChar_facts c (hkm c hc)).2.1⟩
    have hal : ¬ (a.getLastD ' ') = 'e' ∧ ¬ (a.getLastD ' ') = 'E' :=
      getLastD_prop (fun c => ¬ c = 'e' ∧ ¬ c = 'E') a ' '
        (fun c hc => ⟨(mantChar_facts c (ha c hc)).2.2.2.1,
          (mantChar_facts c (ha c hc)).2.2.2.2.1⟩) (by decide)
    rw [splitTerms_nosplit a hanp _ [] ' ']
    rw [List.nil_append]
    rw [splitTerms_split '+' (Or.inl rfl) _ a _ hal.1 hal.2 hane]
    rw [splitTerms_nosplit b hbnp _ ['+'] '+']
    rw [splitTerms_step 'e' _ _ _ (by simp)]
    rw [splitTerms_step '-' _ _ 'e' (by simp)]
    rw [splitTerms_nosplit k hknp _ _ _]
    rw [splitTerms_step 'i' _ _ _ (by simp)]
    rw [splitTerms_final _ 'i' (by simp)]
    simp
  -- value of the real term
  have hta : termValue a = .ok (false, qa) := by
    have hnia : ¬ ('i' ∈ a) := fun hmem => (mantChar_facts 'i' (ha 'i' hmem)).2.2.1 rfl
    simp only [termValue]
    rw [if_neg hnia, hpa]
  -- value of the imaginary term
  have htb : termValue ('+' :: (b ++ 'e' :: '-' :: (k ++ ['i']))) = .ok (true, qb) := by
    have hi2 : 'i' ∈ '+' :: (b ++ 'e' :: '-' :: (k ++ ['i'])) := by simp
    have histr : trimEndI ('+' :: (b ++ 'e' :: '-' :: (k ++ ['i'])))
        = '+' :: (b ++ 'e' :: '-' :: k) := by
      have hassoc : '+' :: (b ++ 'e' :: '-' :: (k ++ ['i']))
          = ('+' :: (b ++ 'e' :: '-' :: k)) ++ ['i'] := by simp
      rw [hassoc]
      refine trimEndI_append_i _ fun c hc => ?_
      simp only [List.mem_cons, List.mem_append] at hc
      rcases hc with rfl | hcb | rfl | rfl | hck
      · decide
      · exact (mantChar_facts c (hb c hcb)).2.2.1
      · decide
      · decide
      · exact (mantChar_facts c (hkm c hck)).2.2.1
    simp only [termValue]
    rw [if_pos hi2, histr]
    rw [if_neg (by simp), if_neg (by simp), if_neg (by simp [List.append_eq_nil])]
    cases b with
    | nil => exact absurd rfl hbne
    | cons c0 b2 =>
      have hc0 := mantChar_facts c0 (hb c0 (List.mem_cons_self c0 b2))
      have h5 : parseFloat (c0 :: (b2 ++ 'e' :: '-' :: k))
          = parseUnsigned (c0 :: (b2 ++ 'e' :: '-' :: k)) :=
        parseFloat_not_sign c0 _ hc0.1 hc0.2.1
      have h6 : parseFloat (c0 :: (b2 ++ 'e' :: '-' :: k)) = some qb := hpb
      rw [h5] at h6
      rw [parseFloat_cons_plus]
      rw [show ((c0 :: b2) ++ 'e' :: '-' :: k) = c0 :: (b2 ++ 'e' :: '-' :: k) from rfl]
      rw [h6]
  -- assemble
  simp only [fromStrChars]
  rw [htrim]
  rw [if_neg hne, if_neg (not_not_intro hi_mem),
    if_neg (fun hh => hh.1 hplus_mem), hsplit]
  simp only [parsePartsLoop, hta, htb]

/-- Witness for C2 at the input "2+1.5e-3i". -/
theorem spec_c2_exponent_not_split_witness :
    fromStrChars (['2'] ++ '+' :: (['1', '.', '5'] ++ 'e' :: '-' :: (['3'] ++ ['i'])))
      = .ok ⟨2, 3 / 2000⟩ :=
  spec_c2_exponent_not_split ['2'] ['1', '.', '5'] ['3'] 2 (3 / 2000)
    (by decide) (by decide) (by decide) (by decide) (by decide) (by decide)
    (by simp [parseFloat, parseUnsigned, notExpChar, parseMantissa, isDigitC,
      digitsToNat, digitVal, pow10, List.takeWhile, List.dropWhile])
    (by simp [parseFloat, parseUnsigned, notExpChar, parseMantissa, parseExp, qpow10,
      isDigitC, digitsToNat, digitVal, pow10, List.takeWhile, List.dropWhile]; norm_num)

/-- Witness for C7 at the non-zero vector [3+4i]. -/
theorem spec_c7_normalize_unit_norm_witness :
    ¬ (⟨[⟨3, 4⟩]⟩ : ComplexVector).is_zero
    ∧ ∃ w, (⟨[⟨3, 4⟩]⟩ : ComplexVector).normalize = some w ∧ |w.norm - 1| ≤ 1e-10 :=
  have hnz : ¬ (⟨[⟨3, 4⟩]⟩ : ComplexVector).is_zero := by
    intro hz
    obtain ⟨h1, h2⟩ := hz ⟨3, 4⟩ (List.mem_singleton.mpr rfl)
    norm_num at h1
  ⟨hnz, spec_c7_normalize_unit_norm _ hnz⟩

end Rusticle
